import Mathlib

/-!
Verification of the CT back-projection reconstruction (ct_parallel02.cpp).

Shallow embedding of the reconstruction core of `src/Ass/A4/ct_parallel02.cpp`:
the binary segment reader/writer, the static projection partitioner, the
voxel-driven back-projection kernel, the sum-reduction that combines the
per-process partial volumes, and the coordinator's finalization step.

Modelling conventions:
* 32-bit floats are idealized as exact rationals (`ℚ`); `std::round` is
  round-half-away-from-zero, the semantics of `std::round` on finite values.
* A binary file is a list of float elements; `MPI_File_read_all` into a
  zero-initialized buffer yields `0` past the end of the file, mirroring
  `std::vector<float> data(size, 0)` at line 40 of the source.
* The collective MPI calls are modelled by their value semantics: the
  reduction is the element-wise sum over ranks, and a failed collective
  open aborts the run, which we model as an `Except.error`.
-/

namespace CT

/-- The constant `num_projections = 320` (source line 20). -/
def num_projections : ℕ := 320

/-- The constant `detector_rows = 192` (source line 21). -/
def detector_rows : ℕ := 192

/-- The constant `detector_columns = 256` (source line 22). -/
def detector_columns : ℕ := 256

/-! ## Binary segment reader and writer -/

/-- The byte offset `offset_bin = offset * sizeof(float)` (source line 39)
into the file at which the read starts, in units of bytes (a float is 4
bytes wide). -/
def offset_bin (offset : ℕ) : ℕ := offset * 4

/-- The pure content read by `read_file` (source lines 34–66) from a file
whose elements are `file`: the buffer is allocated as `size` zeros and
`MPI_File_read_all` fills position `k` with element `offset + k` of the
file when it exists, leaving the zero otherwise. -/
def read_file (size offset : ℕ) (file : List ℚ) : List ℚ :=
  (List.range size).map (fun k => file.getD (offset + k) 0)

/-- A file system: a partial map from file names to element contents. -/
def FileSystem : Type := String → Option (List ℚ)

/-- The reader `read_file` including the collective `MPI_File_open` (line 60):
if the named file cannot be opened the collective open fails and the run
aborts with an I/O error; otherwise the segment is read.  The read starts
at byte offset `offset_bin offset`, i.e. element `offset_bin offset / 4`. -/
def read_file_fs (size offset : ℕ) (filename : String) (fs : FileSystem) :
    Except String (List ℚ) :=
  match fs filename with
  | none => .error ("Cannot open file: " ++ filename)
  | some file => .ok (read_file size (offset_bin offset / 4) file)

/-- The writer `write_file` (source lines 74–82): the file is opened with
`std::ios::out | binary`, which creates or truncates it, then the stream
seeks to byte `offset * sizeof(float)` and writes the whole sequence.  The
resulting file content is a zero hole of `offset` elements followed by the
data. -/
def write_file (data : List ℚ) (offset : ℕ) : List ℚ :=
  List.replicate offset 0 ++ data

/-! ## Global and per-projection data -/

/-- The class `GlobalData` (source lines 85–91). -/
structure GlobalData where
  combined_matrix : List ℚ
  z_voxel_coords : List ℚ

/-- The class `ProjectionData` (source lines 94–102). -/
structure ProjectionData where
  projection : List ℚ
  transform_matrix : List ℚ
  volume_weight : List ℚ

/-! ## Work partitioner (source lines 176–187) -/

/-- The quota `num_projections_l = num_projections/mpi_size` (line 177):
the per-rank projection quota, by integer division. -/
def num_projections_l (P S : ℕ) : ℕ := P / S

/-- The range start `start_id = mpi_rank * num_projections_l` (line 178). -/
def start_id (P S r : ℕ) : ℕ := r * num_projections_l P S

/-- The range stop `stop_id` (lines 181–187): every rank but the last stops after its
quota; the last rank absorbs the remainder and stops at `P`. -/
def stop_id (P S r : ℕ) : ℕ :=
  if r ≠ S - 1 then (r + 1) * num_projections_l P S else P

/-! ## Back-projection kernel (source lines 200–227) -/

/-- The rounding `std::round` on an exact rational: round to nearest, halves away from
zero. -/
def roundNearest (q : ℚ) : ℤ :=
  if 0 ≤ q then ⌊q + 1/2⌋ else ⌈q - 1/2⌉

/-- The homogeneous voxel component `combined_val` (lines 206–207): the
`j = 2` component is overridden with `z_voxel_coords[z]`; every other
component, `j = 3` included, is read from `combined_matrix[j*size + i]`
where `size = V²`. -/
def combined_val (g : GlobalData) (V z i j : ℕ) : ℚ :=
  if j = 2 then g.z_voxel_coords.getD z 0
  else g.combined_matrix.getD (j * (V * V) + i) 0

/-- The homogeneous voxel component as §4.5a of the spec words it:
`combined_matrix[0*V²+i]` (X), `combined_matrix[1*V²+i]` (Y),
`z_voxel_coords[z]` (Z), *and an implicit 1 (W)* for `j = 3`.  Declared
only to compare the spec's wording against the kernel's actual access
`combined_val`, which reads the `j = 3` component from the matrix. -/
def combined_val_spec (g : GlobalData) (V z i j : ℕ) : ℚ :=
  if j = 2 then g.z_voxel_coords.getD z 0
  else if j = 3 then 1
  else g.combined_matrix.getD (j * (V * V) + i) 0

/-- Accumulator `vol_det_map_r` for row `r` (lines 204–211): the loop over
`j = 0..3` accumulates `combined_val * transform_matrix[j + 4*r]`. -/
def vol_det_map (g : GlobalData) (p : ProjectionData) (V z i r : ℕ) : ℚ :=
  (List.range 4).foldl
    (fun acc j => acc + combined_val g V z i j * p.transform_matrix.getD (j + 4 * r) 0) 0

/-- The candidate column `map_col = std::round(vol_det_map_0 / vol_det_map_2)`
(line 213). -/
def map_col (g : GlobalData) (p : ProjectionData) (V z i : ℕ) : ℤ :=
  roundNearest (vol_det_map g p V z i 0 / vol_det_map g p V z i 2)

/-- The candidate row `map_row = std::round(vol_det_map_1 / vol_det_map_2)`
(line 214). -/
def map_row (g : GlobalData) (p : ProjectionData) (V z i : ℕ) : ℤ :=
  roundNearest (vol_det_map g p V z i 1 / vol_det_map g p V z i 2)

/-- The detector-bounds test (line 218):
`map_col >= 0 && map_row >= 0 && map_col < detector_columns && map_row < detector_rows`. -/
def in_bounds (dr dc : ℕ) (c r : ℤ) : Prop :=
  0 ≤ c ∧ 0 ≤ r ∧ c < (dc : ℤ) ∧ r < (dr : ℤ)

instance (dr dc : ℕ) (c r : ℤ) : Decidable (in_bounds dr dc c r) := by
  unfold in_bounds; infer_instance

/-- The contribution the kernel adds to voxel `(z, i)` for this projection
(lines 218–225): the weighted detector pixel when the mapped pixel is in
bounds, nothing otherwise. -/
def contribution (dr dc : ℕ) (g : GlobalData) (p : ProjectionData) (V z i : ℕ) : ℚ :=
  if in_bounds dr dc (map_col g p V z i) (map_row g p V z i) then
    p.projection.getD ((map_col g p V z i) + (map_row g p V z i) * (dc : ℤ)).toNat 0
      * p.volume_weight.getD i 0
  else 0

/-- One projection's pass over the volume (the doubly nested loop of lines
201–227): every flat index `idx = z * V² + i` with `z < V`, `i < V²` —
equivalently `idx < V³` — receives its contribution; the loop iterations
touch pairwise distinct entries, so the update is pointwise. -/
def recon_step (dr dc V : ℕ) (g : GlobalData) (p : ProjectionData)
    (vol : ℕ → ℚ) : ℕ → ℚ :=
  fun idx =>
    if idx < V * V * V then
      vol idx + contribution dr dc g p V (idx / (V * V)) (idx % (V * V))
    else vol idx

/-- The per-process loop over assigned projections (lines 189–230): starting
from the zero volume of line 172, each projection id in
`[start, stop)` is loaded (as `pdata id`) and accumulated in order. -/
def process_volume (dr dc V : ℕ) (g : GlobalData) (pdata : ℕ → ProjectionData)
    (start stop : ℕ) : ℕ → ℚ :=
  (List.range' start (stop - start)).foldl
    (fun vol id => recon_step dr dc V g (pdata id) vol) (fun _ => 0)

/-- The rank-`r` local volume: the projection loop run over the partition
range the Work Partitioner assigns to rank `r`. -/
def local_volume (dr dc V : ℕ) (g : GlobalData) (pdata : ℕ → ProjectionData)
    (P S r : ℕ) : ℕ → ℚ :=
  process_volume dr dc V g pdata (start_id P S r) (stop_id P S r)

/-- The reduction `MPI_Reduce(..., MPI_SUM, 0, ...)` (lines 234–235): the final volume
delivered to the coordinator is the element-wise sum of the `S` local
volumes. -/
def final_volume (dr dc V : ℕ) (g : GlobalData) (pdata : ℕ → ProjectionData)
    (P S : ℕ) : ℕ → ℚ :=
  fun idx => ∑ r ∈ Finset.range S, local_volume dr dc V g pdata P S r idx

/-! ## Finalization (source lines 237–254) -/

/-- The vector `recon_volume_final`: the flat vector of `V³` elements handed to
`write_file` and `std::accumulate`. -/
def volume_list (V : ℕ) (vol : ℕ → ℚ) : List ℚ :=
  (List.range (V * V * V)).map vol

/-- The checksum `std::accumulate(recon_volume_final.begin(), recon_volume_final.end(), 0.0)`
(lines 246–247). -/
def checksum (data : List ℚ) : ℚ := data.foldl (· + ·) 0

/-- The externally visible actions of the finalization step. -/
structure FinalEffects where
  written : Option (List ℚ)
  reported_checksum : Option ℚ
  deriving DecidableEq

/-- The code after the barrier (lines 237–254): only rank 0 writes the
volume (and only when an output filename was given, line 239) and reports
the checksum; every other rank does nothing. -/
def finalize (rank : ℕ) (output_filename : String) (vol : List ℚ) : FinalEffects :=
  if rank = 0 then
    { written := if output_filename ≠ "" then some (write_file vol 0) else none
      reported_checksum := some (checksum vol) }
  else
    { written := none, reported_checksum := none }

/-! ## Concrete test fixtures

A `V = 1` instance on a 2×2 detector.  `gW.combined_matrix` stores the
X, Y, placeholder and W rows `[0, 0, 0, 1]` (row 3 holds the homogeneous
1 the data pipeline provides); the transforms of `pW` and `qW` are
constant, sending the single voxel column to pixel `(1, 1)` and to the
out-of-bounds pixel `(2, 0)` respectively. -/

def gW : GlobalData := ⟨[0, 0, 0, 1], [0]⟩

def pW : ProjectionData := ⟨[5, 5, 5, 5], [0,0,0,1, 0,0,0,1, 0,0,0,1], [1]⟩

def qW : ProjectionData := ⟨[5, 5, 5, 5], [0,0,0,2, 0,0,0,0, 0,0,0,1], [1]⟩

/-- A one-file file system fixture: only `"a"` exists, holding `[1,2,3]`. -/
def fsW : FileSystem := fun s => if s = "a" then some [1, 2, 3] else none

/-! ## Theorems -/

/-- Helper: reading back a list by positions reproduces the list. -/
theorem map_getD_range (data : List ℚ) :
    (List.range data.length).map (fun k => data.getD k 0) = data := by
  apply List.ext_getElem
  · simp
  · intro n h1 h2
    simp [List.getD_eq_getElem?_getD, List.getElem?_eq_getElem, h2]

/-- Helper: ranks are served in increasing, non-overlapping ranges. -/
theorem stop_le_start_of_lt (P S r1 r2 : ℕ) (h12 : r1 < r2) (h2 : r2 < S) :
    stop_id P S r1 ≤ start_id P S r2 := by
  have hne : r1 ≠ S - 1 := by omega
  simp only [stop_id, start_id, num_projections_l, if_pos hne, hne]
  exact Nat.mul_le_mul_right _ (by omega)

/-- Helper: every rank's range is well formed. -/
theorem start_le_stop (P S r : ℕ) (hr : r < S) :
    start_id P S r ≤ stop_id P S r := by
  by_cases h : r = S - 1
  · subst h
    have hstop : stop_id P S (S - 1) = P := by simp [stop_id]
    rw [hstop]
    calc start_id P S (S - 1) = (S - 1) * (P / S) := rfl
      _ ≤ S * (P / S) := Nat.mul_le_mul_right _ (by omega)
      _ = P / S * S := Nat.mul_comm _ _
      _ ≤ P := Nat.div_mul_le_self P S
  · simp only [stop_id, start_id, num_projections_l, if_pos h]
    exact Nat.mul_le_mul_right _ (by omega)

/-- C1 (counterexample): the kernel does **not** use an implicit 1 as the
`j = 3` homogeneous component — it reads `combined_matrix[3*V²+i]`.  On a
concrete instance with `V = 1` whose combined matrix stores `2` at row 3
and whose transform row 0 is `[0,0,0,1]`, the accumulator for row 0 is `2`
while the spec's matrix-vector product with implicit `1` gives `1`. -/
theorem kernel_component3_not_implicit_one :
    vol_det_map ⟨[0, 0, 0, 2], [0]⟩ ⟨[5], [0,0,0,1, 0,0,0,0, 0,0,0,1], [1]⟩ 1 0 0 0
      ≠ ∑ j ∈ Finset.range 4,
          combined_val_spec ⟨[0, 0, 0, 2], [0]⟩ 1 0 0 j
            * (⟨[5], [0,0,0,1, 0,0,0,0, 0,0,0,1], [1]⟩ : ProjectionData).transform_matrix.getD (j + 4 * 0) 0 := by
  simp [vol_det_map, combined_val, combined_val_spec, List.range_succ,
    Finset.sum_range_succ]

/-- C1 (amended): for every projection, slice `z` and flat index `i`, the
kernel's accumulator for row `r` is the 3×4 matrix-vector product of the
transform row with the homogeneous component vector `combined_val`, whose
`j = 3` entry is `combined_matrix[3*V²+i]` (not an implicit 1). -/
theorem kernel_accumulator_is_matvec (g : GlobalData) (p : ProjectionData)
    (V z i r : ℕ) :
    vol_det_map g p V z i r
      = ∑ j ∈ Finset.range 4,
          combined_val g V z i j * p.transform_matrix.getD (j + 4 * r) 0 := by
  simp [vol_det_map, List.range_succ, Finset.sum_range_succ]

/-- C3: for every projection count `P`, group size `S ≥ 1` and rank
`r < S`, the partitioner gives `[r·⌊P/S⌋, (r+1)·⌊P/S⌋)` to every rank but
the last and `[(S−1)·⌊P/S⌋, P)` to the last; the ranges tile `[0, P)` with
no gap or overlap, and the last range has length `P − (S−1)·⌊P/S⌋`. -/
theorem partitioner_tiles (P S : ℕ) (hS : 1 ≤ S) :
    (∀ r, r < S - 1 →
        start_id P S r = r * (P / S) ∧ stop_id P S r = (r + 1) * (P / S))
    ∧ (start_id P S (S - 1) = (S - 1) * (P / S) ∧ stop_id P S (S - 1) = P)
    ∧ (∀ k, k < P → ∃! r, r < S ∧ start_id P S r ≤ k ∧ k < stop_id P S r)
    ∧ stop_id P S (S - 1) - start_id P S (S - 1) = P - (S - 1) * (P / S) := by
  refine ⟨fun r hr => ?_, ⟨rfl, ?_⟩, fun k hk => ?_, ?_⟩
  · have hne : r ≠ S - 1 := by omega
    exact ⟨rfl, by simp [stop_id, num_projections_l, hne]⟩
  · simp [stop_id]
  · -- existence and uniqueness of the owning rank
    have hexists : ∃ r, r < S ∧ start_id P S r ≤ k ∧ k < stop_id P S r := by
      by_cases hcase : k < (S - 1) * (P / S)
      · have hq : 0 < P / S := by
          rcases Nat.eq_zero_or_pos (P / S) with h0 | h0
          · rw [h0, Nat.mul_zero] at hcase; omega
          · exact h0
        refine ⟨k / (P / S), ?_, ?_, ?_⟩
        · have : k / (P / S) < S - 1 := by
            rw [Nat.div_lt_iff_lt_mul hq]; exact hcase
          omega
        · simpa [start_id, num_projections_l] using Nat.div_mul_le_self k (P / S)
        · have hlt : k / (P / S) < S - 1 := by
            rw [Nat.div_lt_iff_lt_mul hq]; exact hcase
          have hne : k / (P / S) ≠ S - 1 := by omega
          simp only [stop_id, num_projections_l, if_pos hne]
          exact (Nat.div_lt_iff_lt_mul hq).mp (Nat.lt_succ_self _)
      · refine ⟨S - 1, by omega, ?_, ?_⟩
        · simpa [start_id, num_projections_l] using Nat.le_of_not_lt hcase
        · simp [stop_id, hk]
    obtain ⟨r, hr⟩ := hexists
    refine ⟨r, hr, fun y hy => ?_⟩
    rcases Nat.lt_trichotomy y r with h | h | h
    · exact absurd (lt_of_lt_of_le hy.2.2 (le_trans (stop_le_start_of_lt P S y r h hr.1) hr.2.1))
        (lt_irrefl k)
    · exact h
    · exact absurd (lt_of_lt_of_le hr.2.2 (le_trans (stop_le_start_of_lt P S r y h hy.1) hy.2.1))
        (lt_irrefl k)
  · simp [stop_id, start_id, num_projections_l]

/-- C3 (witness): at `P = 10`, `S = 3` the partition is `[0,3) [3,6) [6,10)`;
projection 7 is owned exactly by rank 2, and the last range has length
`10 − 2·3 = 4`. -/
theorem partitioner_tiles_witness :
    1 ≤ 3 ∧ (∃! r, r < 3 ∧ start_id 10 3 r ≤ 7 ∧ 7 < stop_id 10 3 r)
      ∧ stop_id 10 3 (3 - 1) - start_id 10 3 (3 - 1) = 10 - (3 - 1) * (10 / 3) :=
  ⟨by decide, (partitioner_tiles 10 3 (by decide)).2.2.1 7 (by decide),
    (partitioner_tiles 10 3 (by decide)).2.2.2⟩

/-- C5: the checksum computed by the coordinator (a left fold of addition
over `recon_volume_final`) is the sum of all `V³` elements of the final
volume, and those are exactly the values written to the output file (the
write at offset 0 stores the list unchanged). -/
theorem checksum_is_total_sum (V : ℕ) (vol : ℕ → ℚ) :
    checksum (volume_list V vol) = ∑ idx ∈ Finset.range (V * V * V), vol idx
    ∧ write_file (volume_list V vol) 0 = volume_list V vol := by
  constructor
  · rw [checksum, ← List.sum_eq_foldl, volume_list]
    induction V * V * V with
    | zero => simp
    | succ n ih => rw [List.range_succ, Finset.sum_range_succ, ← ih]; simp
  · simp [write_file]

/-- C7: writing a sequence at an element offset and reading back the same
number of elements at the same offset returns exactly the original
values. -/
theorem write_read_roundtrip (data : List ℚ) (offset : ℕ) :
    read_file data.length offset (write_file data offset) = data := by
  have h : ∀ k, (write_file data offset).getD (offset + k) 0 = data.getD k 0 := by
    intro k
    rw [write_file, List.getD_append_right, List.length_replicate]
    · simp
    · simp
  calc read_file data.length offset (write_file data offset)
      = (List.range data.length).map (fun k => data.getD k 0) := by
        unfold read_file; exact List.map_congr_left fun k _ => h k
    _ = data := map_getD_range data

/-- Helper: decomposing the flat volume index `z*V² + i` with `z < V` and
`i < V²` recovers `z` and `i`, and the index is below `V³`. -/
theorem idx_decompose (V z i : ℕ) (hz : z < V) (hi : i < V * V) :
    (z * (V * V) + i) / (V * V) = z ∧ (z * (V * V) + i) % (V * V) = i
    ∧ z * (V * V) + i < V * V * V := by
  have hV : 0 < V * V := lt_of_le_of_lt (Nat.zero_le i) hi
  refine ⟨?_, ?_, ?_⟩
  · rw [Nat.mul_comm z (V * V), Nat.mul_add_div hV, Nat.div_eq_of_lt hi, Nat.add_zero]
  · rw [Nat.mul_comm z (V * V), Nat.mul_add_mod, Nat.mod_eq_of_lt hi]
  · calc z * (V * V) + i < z * (V * V) + V * V := by omega
      _ = (z + 1) * (V * V) := by ring
      _ ≤ V * (V * V) := Nat.mul_le_mul_right _ (by omega)
      _ = V * V * V := by ring

/-- C2: for a voxel `(z, i)` the kernel adds
`projection[map_col + map_row·detector_columns] * volume_weight[i]` to
`volume[z·V² + i]` exactly when the rounded candidate pixel lies in
`[0, detector_columns) × [0, detector_rows)`; otherwise the voxel is left
unchanged by this projection (the out-of-bounds ray is silently masked,
no error value is produced). -/
theorem kernel_masks_out_of_bounds (dr dc V z i : ℕ) (g : GlobalData)
    (p : ProjectionData) (vol : ℕ → ℚ) (hz : z < V) (hi : i < V * V) :
    (in_bounds dr dc (map_col g p V z i) (map_row g p V z i) →
      recon_step dr dc V g p vol (z * (V * V) + i)
        = vol (z * (V * V) + i)
          + p.projection.getD (map_col g p V z i + map_row g p V z i * (dc : ℤ)).toNat 0
            * p.volume_weight.getD i 0)
    ∧ (¬ in_bounds dr dc (map_col g p V z i) (map_row g p V z i) →
      recon_step dr dc V g p vol (z * (V * V) + i) = vol (z * (V * V) + i)) := by
  obtain ⟨hdiv, hmod, hlt⟩ := idx_decompose V z i hz hi
  constructor <;> intro hb <;>
    simp [recon_step, hlt, hdiv, hmod, contribution, hb]

/-- C2 (witness): on the `V = 1`, 2×2-detector fixture the candidate pixel
is `(1, 1)`, which is in bounds, and the kernel adds
`projection[3] * weight[0] = 5` to the (only) voxel. -/
theorem kernel_masks_out_of_bounds_witness :
    (0 : ℕ) < 1 ∧
      recon_step 2 2 1 gW pW (fun _ => 0) (0 * (1 * 1) + 0)
        = (fun _ => (0 : ℚ)) (0 * (1 * 1) + 0)
          + pW.projection.getD (map_col gW pW 1 0 0 + map_row gW pW 1 0 0 * (2 : ℤ)).toNat 0
            * pW.volume_weight.getD 0 0 := by
  have hc : map_col gW pW 1 0 0 = 1 := by
    norm_num [map_col, vol_det_map, combined_val, roundNearest, gW, pW,
      List.range_succ, Int.floor_eq_iff]
  have hr : map_row gW pW 1 0 0 = 1 := by
    norm_num [map_row, vol_det_map, combined_val, roundNearest, gW, pW,
      List.range_succ, Int.floor_eq_iff]
  refine ⟨by decide, (kernel_masks_out_of_bounds 2 2 1 0 0 gW pW (fun _ => 0)
    (by decide) (by decide)).1 ?_⟩
  rw [in_bounds, hc, hr]
  norm_num

/-- C10: whenever the kernel's bounds test passes, the flat detector index
`map_col + map_row·detector_columns` lies in
`[0, detector_rows·detector_columns)` and the flat volume index `z·V² + i`
lies in `[0, V³)`, so both array accesses are in bounds. -/
theorem kernel_accesses_safe (dr dc V z i : ℕ) (g : GlobalData) (p : ProjectionData)
    (hb : in_bounds dr dc (map_col g p V z i) (map_row g p V z i))
    (hz : z < V) (hi : i < V * V) :
    0 ≤ map_col g p V z i + map_row g p V z i * (dc : ℤ)
    ∧ map_col g p V z i + map_row g p V z i * (dc : ℤ) < (dr : ℤ) * dc
    ∧ z * (V * V) + i < V * V * V := by
  obtain ⟨hc0, hr0, hcd, hrd⟩ := hb
  have hdc : (0 : ℤ) ≤ dc := Int.natCast_nonneg dc
  refine ⟨add_nonneg hc0 (mul_nonneg hr0 hdc), ?_, (idx_decompose V z i hz hi).2.2⟩
  have h1 : map_row g p V z i + 1 ≤ (dr : ℤ) := Int.add_one_le_iff.mpr hrd
  calc map_col g p V z i + map_row g p V z i * (dc : ℤ)
      < (dc : ℤ) + map_row g p V z i * dc := by linarith
    _ = (map_row g p V z i + 1) * dc := by ring
    _ ≤ (dr : ℤ) * dc := mul_le_mul_of_nonneg_right h1 hdc

/-- C10 (witness): on the fixture the bounds test passes at pixel `(1, 1)`
and both indices are in bounds. -/
theorem kernel_accesses_safe_witness :
    0 ≤ map_col gW pW 1 0 0 + map_row gW pW 1 0 0 * (2 : ℤ)
    ∧ map_col gW pW 1 0 0 + map_row gW pW 1 0 0 * (2 : ℤ) < (2 : ℤ) * 2
    ∧ 0 * (1 * 1) + 0 < 1 * 1 * 1 := by
  have hc : map_col gW pW 1 0 0 = 1 := by
    norm_num [map_col, vol_det_map, combined_val, roundNearest, gW, pW,
      List.range_succ, Int.floor_eq_iff]
  have hr : map_row gW pW 1 0 0 = 1 := by
    norm_num [map_row, vol_det_map, combined_val, roundNearest, gW, pW,
      List.range_succ, Int.floor_eq_iff]
  exact kernel_accesses_safe 2 2 1 0 0 gW pW
    (by rw [in_bounds, hc, hr]; norm_num) (by decide) (by decide)

/-- Helper: the effect of folding the kernel over a list of projection ids
on one voxel is the sum of the per-projection contributions. -/
theorem foldl_recon_step (dr dc V : ℕ) (g : GlobalData) (pdata : ℕ → ProjectionData)
    (l : List ℕ) (vol : ℕ → ℚ) (idx : ℕ) :
    (l.foldl (fun vol id => recon_step dr dc V g (pdata id) vol) vol) idx
      = vol idx
        + if idx < V * V * V then
            (l.map (fun id =>
              contribution dr dc g (pdata id) V (idx / (V * V)) (idx % (V * V)))).sum
          else 0 := by
  induction l generalizing vol with
  | nil => simp
  | cons a t ih =>
      rw [List.foldl_cons, ih, List.map_cons, List.sum_cons]
      by_cases h : idx < V * V * V
      · simp only [recon_step, h, if_pos]
        ring
      · simp [recon_step, h]

/-- Helper: the sum of a function over `List.range' a n`. -/
theorem sum_map_range' (f : ℕ → ℚ) (a n : ℕ) :
    ((List.range' a n).map f).sum = ∑ k ∈ Finset.range n, f (a + k) := by
  induction n generalizing a with
  | zero => simp
  | succ m ih =>
      rw [List.range'_succ, List.map_cons, List.sum_cons, ih, Finset.sum_range_succ']
      have h1 : ∑ k ∈ Finset.range m, f (a + 1 + k) = ∑ k ∈ Finset.range m, f (a + (k + 1)) :=
        Finset.sum_congr rfl fun k _ => congrArg f (by omega)
      rw [h1, Nat.add_zero]
      exact add_comm _ _

/-- Helper: the per-process projection loop, at one voxel, equals the
difference of prefix sums of contributions over `[0, stop)` and
`[0, start)`. -/
theorem process_volume_eq_sum (dr dc V : ℕ) (g : GlobalData) (pdata : ℕ → ProjectionData)
    (a b idx : ℕ) (hab : a ≤ b) :
    process_volume dr dc V g pdata a b idx
      = if idx < V * V * V then
          (∑ id ∈ Finset.range b,
              contribution dr dc g (pdata id) V (idx / (V * V)) (idx % (V * V)))
            - ∑ id ∈ Finset.range a,
                contribution dr dc g (pdata id) V (idx / (V * V)) (idx % (V * V))
        else 0 := by
  rw [process_volume, foldl_recon_step, sum_map_range']
  by_cases h : idx < V * V * V
  · simp only [h, if_pos, zero_add]
    rw [← Finset.sum_Ico_eq_sub _ hab, Finset.sum_Ico_eq_sum_range]
  · simp [h]

/-- C4: the final volume delivered to the coordinator by the sum-reduction
is the element-wise sum of the `S` per-rank local volumes, and it equals —
exactly, in the idealized arithmetic — the volume a single process (`S = 1`)
computes over all `P` projections; consequently the two runs report the
same checksum. -/
theorem reduction_refines_sequential (dr dc V : ℕ) (g : GlobalData)
    (pdata : ℕ → ProjectionData) (P S : ℕ) (hS : 1 ≤ S) :
    (∀ idx, final_volume dr dc V g pdata P S idx
        = ∑ r ∈ Finset.range S, local_volume dr dc V g pdata P S r idx)
    ∧ (∀ idx, final_volume dr dc V g pdata P S idx
        = final_volume dr dc V g pdata P 1 idx)
    ∧ checksum (volume_list V (final_volume dr dc V g pdata P S))
        = checksum (volume_list V (final_volume dr dc V g pdata P 1)) := by
  have key : ∀ idx, final_volume dr dc V g pdata P S idx
      = process_volume dr dc V g pdata 0 P idx := by
    intro idx
    unfold final_volume local_volume
    by_cases h : idx < V * V * V
    · set c : ℕ → ℚ := fun id =>
        contribution dr dc g (pdata id) V (idx / (V * V)) (idx % (V * V)) with hc
      set F : ℕ → ℚ := fun n => ∑ id ∈ Finset.range n, c id with hF
      set bdry : ℕ → ℕ := fun r => if r < S then start_id P S r else P with hbdry
      have hstop : ∀ r, r < S → stop_id P S r = bdry (r + 1) := by
        intro r hr
        by_cases h1 : r + 1 < S
        · have hne : r ≠ S - 1 := by omega
          simp [hbdry, h1, stop_id, start_id, num_projections_l, hne]
        · have hr1 : r = S - 1 := by omega
          subst hr1
          simp [hbdry, h1, stop_id]
      calc ∑ r ∈ Finset.range S,
            process_volume dr dc V g pdata (start_id P S r) (stop_id P S r) idx
          = ∑ r ∈ Finset.range S, (F (bdry (r + 1)) - F (bdry r)) := by
            refine Finset.sum_congr rfl fun r hr => ?_
            have hrS := Finset.mem_range.mp hr
            rw [process_volume_eq_sum dr dc V g pdata _ _ idx (start_le_stop P S r hrS),
              if_pos h, hstop r hrS]
            congr 1
            simp [hbdry, hrS]
        _ = F (bdry S) - F (bdry 0) := Finset.sum_range_sub (fun r => F (bdry r)) S
        _ = process_volume dr dc V g pdata 0 P idx := by
            rw [process_volume_eq_sum dr dc V g pdata 0 P idx (Nat.zero_le P), if_pos h]
            have h0S : 0 < S := hS
            have hb0 : bdry 0 = 0 := by simp [hbdry, h0S, start_id]
            have hbS : bdry S = P := by simp [hbdry]
            rw [hb0, hbS]
    · rw [process_volume_eq_sum dr dc V g pdata 0 P idx (Nat.zero_le P), if_neg h]
      refine Finset.sum_eq_zero fun r hr => ?_
      rw [process_volume_eq_sum dr dc V g pdata _ _ idx
        (start_le_stop P S r (Finset.mem_range.mp hr)), if_neg h]
  have hone : ∀ idx, final_volume dr dc V g pdata P 1 idx
      = process_volume dr dc V g pdata 0 P idx := by
    intro idx
    simp [final_volume, local_volume, start_id, stop_id, num_projections_l]
  have hpt : ∀ idx, final_volume dr dc V g pdata P S idx
      = final_volume dr dc V g pdata P 1 idx := by
    intro idx; rw [key idx, hone idx]
  exact ⟨fun _ => rfl, hpt,
    congrArg checksum (List.map_congr_left fun idx _ => hpt idx)⟩

/-- C4 (witness): on the fixture with `P = 2` projections, the final volume
of a 2-rank run agrees with the single-rank run at voxel 0. -/
theorem reduction_refines_sequential_witness :
    1 ≤ 2 ∧ final_volume 2 2 1 gW (fun _ => pW) 2 2 0
      = final_volume 2 2 1 gW (fun _ => pW) 2 1 0 :=
  ⟨by decide,
    (reduction_refines_sequential 2 2 1 gW (fun _ => pW) 2 2 (by decide)).2.1 0⟩

/-- C6: (i) with a transform that maps every voxel of every slice to the
last detector pixel `(detector_columns−1, detector_rows−1)`, every voxel of
every slice accumulates a non-zero contribution (given a detector with at
least one row and column, a non-zero pixel value there and non-zero cone
weights); (ii) with a transform that maps every voxel to
`(detector_columns, 0)` — one past the last column — no voxel accumulates
anything: one kernel pass leaves the all-zero volume all zero. -/
theorem boundary_pixel_masking (dr dc V : ℕ) (g : GlobalData) (p q : ProjectionData)
    (hdr : 1 ≤ dr) (hdc : 1 ≤ dc)
    (hp : ∀ z, z < V → ∀ i, i < V * V →
        map_col g p V z i = (dc : ℤ) - 1 ∧ map_row g p V z i = (dr : ℤ) - 1)
    (hpix : p.projection.getD ((((dc : ℤ) - 1) + ((dr : ℤ) - 1) * dc).toNat) 0 ≠ 0)
    (hw : ∀ i, i < V * V → p.volume_weight.getD i 0 ≠ 0)
    (hq : ∀ z, z < V → ∀ i, i < V * V →
        map_col g q V z i = (dc : ℤ) ∧ map_row g q V z i = 0) :
    (∀ z, z < V → ∀ i, i < V * V → contribution dr dc g p V z i ≠ 0)
    ∧ (∀ idx, recon_step dr dc V g q (fun _ => 0) idx = 0) := by
  constructor
  · intro z hz i hi
    obtain ⟨hcol, hrow⟩ := hp z hz i hi
    have hb : in_bounds dr dc (map_col g p V z i) (map_row g p V z i) := by
      rw [in_bounds, hcol, hrow]
      refine ⟨by omega, by omega, by omega, by omega⟩
    rw [contribution, if_pos hb, hcol, hrow]
    exact mul_ne_zero hpix (hw i hi)
  · intro idx
    rw [recon_step]
    by_cases hidx : idx < V * V * V
    · have hVV : 0 < V * V := by
        rcases Nat.eq_zero_or_pos (V * V) with h0 | h0
        · rw [h0] at hidx; omega
        · exact h0
      have hz : idx / (V * V) < V := by
        rw [Nat.div_lt_iff_lt_mul hVV]
        calc idx < V * V * V := hidx
          _ = V * (V * V) := by ring
      have hi : idx % (V * V) < V * V := Nat.mod_lt _ hVV
      obtain ⟨hcol, hrow⟩ := hq _ hz _ hi
      have hnb : ¬ in_bounds dr dc (map_col g q V (idx / (V * V)) (idx % (V * V)))
          (map_row g q V (idx / (V * V)) (idx % (V * V))) := by
        rw [in_bounds, hcol, hrow]
        rintro ⟨-, -, h3, -⟩
        omega
      simp [hidx, contribution, hnb]
    · simp [hidx]

/-- C6 (witness): on the 2×2-detector fixture `pW` maps the voxel to pixel
`(1, 1)` and contributes `5 ≠ 0`; `qW` maps it to `(2, 0)` and the volume
stays zero. -/
theorem boundary_pixel_masking_witness :
    contribution 2 2 gW pW 1 0 0 ≠ 0
    ∧ recon_step 2 2 1 gW qW (fun _ => 0) 0 = 0 := by
  have hcp : map_col gW pW 1 0 0 = 1 := by
    norm_num [map_col, vol_det_map, combined_val, roundNearest, gW, pW,
      List.range_succ, Int.floor_eq_iff]
  have hrp : map_row gW pW 1 0 0 = 1 := by
    norm_num [map_row, vol_det_map, combined_val, roundNearest, gW, pW,
      List.range_succ, Int.floor_eq_iff]
  have hcq : map_col gW qW 1 0 0 = 2 := by
    norm_num [map_col, vol_det_map, combined_val, roundNearest, gW, qW,
      List.range_succ, Int.floor_eq_iff]
  have hrq : map_row gW qW 1 0 0 = 0 := by
    norm_num [map_row, vol_det_map, combined_val, roundNearest, gW, qW,
      List.range_succ, Int.floor_eq_iff]
  have hres := boundary_pixel_masking 2 2 1 gW pW qW (by decide) (by decide)
    (by intro z hz i hi
        have hz0 : z = 0 := by omega
        have hi0 : i = 0 := by omega
        subst hz0; subst hi0
        exact ⟨by rw [hcp]; norm_num, by rw [hrp]; norm_num⟩)
    (by have ht : ((((2 : ℤ) - 1) + ((2 : ℤ) - 1) * 2).toNat) = 3 := by decide
        simp only [Nat.cast_ofNat]
        rw [ht]
        norm_num [pW])
    (by intro i hi
        have hi0 : i = 0 := by omega
        subst hi0
        norm_num [pW])
    (by intro z hz i hi
        have hz0 : z = 0 := by omega
        have hi0 : i = 0 := by omega
        subst hz0; subst hi0
        exact ⟨by rw [hcq]; norm_num, hrq⟩)
  exact ⟨hres.1 0 (by decide) 0 (by decide), hres.2 0⟩

/-- C8: for element count `n`, element offset `o` and a filename: when the
file exists the reader returns exactly `n` elements, element `k` being the
file's element at position `offset_bin o / 4 + k` (the read starts at byte
offset `o·4`, i.e. element `o`); when the file cannot be opened it fails
with an I/O error. -/
theorem reader_contract (n o : ℕ) (filename : String) (fs : FileSystem) :
    (∀ file, fs filename = some file →
        read_file_fs n o filename fs = .ok (read_file n o file)
        ∧ (read_file n o file).length = n
        ∧ ∀ k, k < n → (read_file n o file).getD k 0 = file.getD (o + k) 0)
    ∧ (fs filename = none →
        read_file_fs n o filename fs = .error ("Cannot open file: " ++ filename)) := by
  have hoff : offset_bin o / 4 = o := by
    simp [offset_bin]
  constructor
  · intro file hfile
    refine ⟨?_, by simp [read_file], fun k hk => ?_⟩
    · rw [read_file_fs, hfile, hoff]
    · simp [read_file, List.getD_eq_getElem?_getD, List.getElem?_map,
        List.getElem?_range, hk]
  · intro hfile
    rw [read_file_fs, hfile]

/-- C8 (witness): on the one-file file system, reading 2 elements at offset
1 of `"a"` succeeds with `[2, 3]`, and reading from the missing `"b"`
fails with an I/O error. -/
theorem reader_contract_witness :
    read_file_fs 2 1 "a" fsW = .ok (read_file 2 1 [1, 2, 3])
    ∧ read_file_fs 2 1 "b" fsW = .error ("Cannot open file: " ++ "b") :=
  ⟨((reader_contract 2 1 "a" fsW).1 [1, 2, 3] (by simp [fsW])).1,
    (reader_contract 2 1 "b" fsW).2 (by simp [fsW])⟩

/-- C9: after the reduction and barrier, a non-coordinator rank writes no
file and reports nothing, while the coordinator (rank 0) writes the final
volume exactly when an output filename was given, and reports the checksum
of the final volume. -/
theorem coordinator_only_finalizes (rank : ℕ) (out : String) (vol : List ℚ) :
    (rank ≠ 0 →
        finalize rank out vol = { written := none, reported_checksum := none })
    ∧ finalize 0 out vol
        = { written := if out ≠ "" then some (write_file vol 0) else none,
            reported_checksum := some (checksum vol) } := by
  constructor
  · intro h
    simp [finalize, h]
  · simp [finalize]

/-- C9 (witness): rank 1 performs no action at all. -/
theorem coordinator_only_finalizes_witness :
    (1 : ℕ) ≠ 0
    ∧ finalize 1 "" [] = { written := none, reported_checksum := none } :=
  ⟨by decide, (coordinator_only_finalizes 1 "" []).1 (by decide)⟩

end CT
